import Mathlib

/-!
Verification of the tsc-trace core (`src/lib.rs`): the per-thread span buffer,
the commit operation `_insert_trace` under both storage strategies
(`const_array` fixed array and the default growing `Vec`), and the two
exporters `write_traces_csv` and `write_traces_binary`.

The development is a shallow embedding: u64 values are `Nat` (overflow only
matters in the csv delta, handled by `u64sub`), Rust slice indexing that can
panic is `Option`-valued, and the thread-local state `{TSC_TRACE_SPANS,
TSC_TRACE_INDEX}` is passed explicitly.  The build-time capacity
`TSC_TRACE_CAPACITY` is a parameter `t` of every definition; the constant
below fixes the default tier used for concrete instances.
-/

/-- Number of traces per thread for the default build configuration
(`TSC_TRACE_CAPACITY = 1_000_000` when no capacity feature is selected). -/
def TSC_TRACE_CAPACITY : Nat := 1000000

/-- Rust: `const CAPACITY: usize = TSC_TRACE_CAPACITY * 3;`, parametric in the
configured trace capacity `t`. -/
def CAPACITY (t : Nat) : Nat := t * 3

/-- One `(tag, start, stop)` trace triple; all three fields are u64 values. -/
structure Triple where
  tag : Nat
  start : Nat
  stop : Nat
deriving DecidableEq

/-- Thread-local state: the span storage `TSC_TRACE_SPANS` as a flat list of
u64 words, and the write cursor `TSC_TRACE_INDEX`. -/
structure TState where
  spans : List Nat
  index : Nat
deriving DecidableEq

/-- Initial thread state under the `const_array` strategy:
`[0u64; CAPACITY]` with cursor `0`. -/
def initArray (t : Nat) : TState := ⟨List.replicate (CAPACITY t) 0, 0⟩

/-- Initial thread state under the default `Vec` strategy:
`Vec::with_capacity(CAPACITY)` (length 0) with cursor `0`. -/
def initVec : TState := ⟨[], 0⟩

/-- Bounds-checked store modelling Rust slice indexing `l[i] = v`;
`none` is the index-out-of-bounds panic. -/
def setChecked (l : List Nat) (i v : Nat) : Option (List Nat) :=
  if i < l.length then some (l.set i v) else none

/-- The three consecutive stores `spans[i] = tag; spans[i + 1] = start;
spans[i + 2] = stop` performed by `_insert_trace`. -/
def store3 (l : List Nat) (i tag start stp : Nat) : Option (List Nat) :=
  (setChecked l i tag).bind fun l1 =>
  (setChecked l1 (i + 1) start).bind fun l2 =>
  setChecked l2 (i + 2) stp

/-- Rust `_insert_trace` under the `const_array` feature: defensive cursor
reset, three stores, cursor advanced by 3. -/
def _insert_trace_const_array (t tag start stp : Nat) (st : TState) : Option TState :=
  let i := if st.index ≥ CAPACITY t then 0 else st.index
  (store3 st.spans i tag start stp).map fun l => ⟨l, i + 3⟩

/-- Rust `_insert_trace` under the default `Vec` strategy: push three words
while below `CAPACITY`, otherwise overwrite in place. -/
def _insert_trace_vec (t tag start stp : Nat) (st : TState) : Option TState :=
  let i := if st.index ≥ CAPACITY t then 0 else st.index
  if st.spans.length ≥ CAPACITY t then
    (store3 st.spans i tag start stp).map fun l => ⟨l, i + 3⟩
  else
    some ⟨st.spans ++ [tag, start, stp], i + 3⟩

/-- Run a sequence of commits from the initial `const_array` state. -/
def runArray (t : Nat) (cs : List Triple) : Option TState :=
  cs.foldl (fun acc c => acc.bind (_insert_trace_const_array t c.tag c.start c.stop))
    (some (initArray t))

/-- Run a sequence of commits from the initial `Vec` state. -/
def runVec (t : Nat) (cs : List Triple) : Option TState :=
  cs.foldl (fun acc c => acc.bind (_insert_trace_vec t c.tag c.start c.stop))
    (some initVec)

/-- Wrapping u64 subtraction `stop - start` (the release-mode semantics the
spec documents): for `a, b < 2 ^ 64` this is `(a - b) mod 2 ^ 64`. -/
def u64sub (a b : Nat) : Nat := (2 ^ 64 + a - b) % 2 ^ 64

/-- One text-export record: the four decimal fields of one output line
`tag,start,stop,delta`. -/
structure CsvLine where
  tag : Nat
  start : Nat
  stop : Nat
  delta : Nat
deriving DecidableEq

/-- Loop of `write_traces_csv`: walk the storage in `chunks_exact(3)`, stop at
the first chunk whose `stop` word is 0, attempt one sink write per remaining
chunk.  `sink n` tells whether the n-th write call succeeds; the result is the
list of successfully written lines together with the index of the first
failing write (`none` means `Ok(())`). -/
def csvRun (sink : Nat → Bool) : List Nat → Nat → List CsvLine × Option Nat
  | tag :: start :: stp :: rest, n =>
    if stp = 0 then ([], none)
    else if sink n then
      let r := csvRun sink rest (n + 1)
      (⟨tag, start, stp, u64sub stp start⟩ :: r.1, r.2)
    else ([], some n)
  | _, _ => ([], none)

/-- The lines the csv exporter produces when no sink write fails. -/
def linesOf : List Nat → List CsvLine
  | tag :: start :: stp :: rest =>
    if stp = 0 then [] else ⟨tag, start, stp, u64sub stp start⟩ :: linesOf rest
  | _ => []

/-- The csv line produced for one committed triple. -/
def lineOf (c : Triple) : CsvLine := ⟨c.tag, c.start, c.stop, u64sub c.stop c.start⟩

/-- Rust `write_traces_csv` in state-passing form: the spans are only borrowed
immutably, so the thread state is returned unchanged next to the sink
interaction. -/
def write_traces_csv (sink : Nat → Bool) (st : TState) :
    TState × (List CsvLine × Option Nat) :=
  (st, csvRun sink st.spans 0)

/-- Little-endian byte `j` of the u64 value `x`. -/
def u64leByte (x j : Nat) : Nat := x / 256 ^ j % 256

/-- Little-endian byte encoding of one u64 word, as produced by
`bytemuck::cast_slice` on the library's little-endian targets. -/
def u64le (x : Nat) : List Nat := (List.range 8).map (u64leByte x)

/-- Byte image of the whole span storage. -/
def toBytes : List Nat → List Nat
  | [] => []
  | x :: rest => u64le x ++ toBytes rest

/-- Rust `write_traces_binary` in state-passing form: one `write_all` of the
byte image of the entire borrowed storage; `sink 0` tells whether that single
write succeeds. -/
def write_traces_binary (sink : Nat → Bool) (st : TState) :
    TState × (List Nat × Option Nat) :=
  (st, if sink 0 then (toBytes st.spans, none) else ([], some 0))

/-- Rust `TraceSpan { tag, start }`. -/
structure TraceSpan where
  tag : Nat
  start : Nat
deriving DecidableEq

/-- `TraceSpan::new(tag)`: stores the tag and captures the current counter
reading as `start`.  The hardware counter value read at the construction
point is passed explicitly (`rdtsc` is a hardware oracle). -/
def TraceSpan.new (tag counter_now : Nat) : TraceSpan := ⟨tag, counter_now⟩

/-- `Drop for TraceSpan` under the `const_array` strategy: read the counter as
`stop` and commit through `_insert_trace`. -/
def traceSpanDropArray (t : Nat) (self : TraceSpan) (counter_now : Nat)
    (st : TState) : Option TState :=
  _insert_trace_const_array t self.tag self.start counter_now st

/-- `Drop for TraceSpan` under the default `Vec` strategy. -/
def traceSpanDropVec (t : Nat) (self : TraceSpan) (counter_now : Nat)
    (st : TState) : Option TState :=
  _insert_trace_vec t self.tag self.start counter_now st

/-- Index of the last commit among `0, …, N - 1` that targets ring slot `k`
(commit `i` writes slot `i % t`). -/
def lastWriter (t N k : Nat) : Option Nat :=
  ((List.range N).filter (fun i => i % t == k)).getLast?

/-- Field `r` of a triple in storage order: 0 = tag, 1 = start, 2 = stop. -/
def tripleWord (c : Triple) (r : Nat) : Nat :=
  match r with
  | 0 => c.tag
  | 1 => c.start
  | _ => c.stop

/-- Word `m` of the full backing array after the commit sequence `cs`. -/
def wordOf (t : Nat) (cs : List Triple) (m : Nat) : Nat :=
  match lastWriter t cs.length (m / 3) with
  | some i => tripleWord (cs.getD i ⟨0, 0, 0⟩) (m % 3)
  | none => 0

/-- Closed form of the `const_array` storage after the commit sequence `cs`. -/
def bufferOf (t : Nat) (cs : List Triple) : List Nat :=
  (List.range (CAPACITY t)).map (wordOf t cs)

/-- Closed form of the write cursor after `N` commits. -/
def cursorOf (t N : Nat) : Nat :=
  if N = 0 then 0 else 3 * ((N - 1) % t) + 3

/-- Flattening of triples into consecutive `tag, start, stop` words. -/
def tripleFlatten : List Triple → List Nat
  | [] => []
  | c :: rest => c.tag :: c.start :: c.stop :: tripleFlatten rest

theorem bufferOf_length (t : Nat) (cs : List Triple) :
    (bufferOf t cs).length = CAPACITY t := by
  simp [bufferOf]

theorem bufferOf_getElem (t : Nat) (cs : List Triple) (m : Nat)
    (h : m < (bufferOf t cs).length) : (bufferOf t cs)[m] = wordOf t cs m := by
  simp [bufferOf, List.getElem_map, List.getElem_range]

theorem lastWriter_zero (t k : Nat) : lastWriter t 0 k = none := rfl

theorem lastWriter_succ (t N k : Nat) :
    lastWriter t (N + 1) k = if N % t = k then some N else lastWriter t N k := by
  unfold lastWriter
  rw [List.range_succ, List.filter_append]
  by_cases h : N % t = k
  · rw [show List.filter (fun i => i % t == k) [N] = [N] by simp [List.filter, h]]
    rw [List.getLast?_concat]
    rw [if_pos h]
  · rw [show List.filter (fun i => i % t == k) [N] = [] by
      have hb : (N % t == k) = false := by simp [h]
      simp [List.filter, hb]]
    rw [List.append_nil, if_neg h]

theorem lastWriter_mem (t k : Nat) :
    ∀ (N i : Nat), lastWriter t N k = some i → i < N ∧ i % t = k := by
  intro N
  induction N with
  | zero => intro i h; rw [lastWriter_zero] at h; exact absurd h (by simp)
  | succ N ih =>
    intro i h
    rw [lastWriter_succ] at h
    by_cases hN : N % t = k
    · rw [if_pos hN] at h
      have : N = i := by simpa using h
      subst this
      exact ⟨Nat.lt_succ_self N, hN⟩
    · rw [if_neg hN] at h
      have := ih i h
      exact ⟨Nat.lt_succ_of_lt this.1, this.2⟩

theorem lastWriter_max (t k : Nat) :
    ∀ (N i : Nat), lastWriter t N k = some i → ∀ j, i < j → j < N → j % t ≠ k := by
  intro N
  induction N with
  | zero => intro i h; rw [lastWriter_zero] at h; exact absurd h (by simp)
  | succ N ih =>
    intro i h j hij hjN
    rw [lastWriter_succ] at h
    by_cases hN : N % t = k
    · rw [if_pos hN] at h
      have : N = i := by simpa using h
      omega
    · rw [if_neg hN] at h
      rcases Nat.lt_succ_iff_lt_or_eq.mp hjN with hj | hj
      · exact ih i h j hij hj
      · subst hj; exact hN

theorem lastWriter_isSome_iff (t N k : Nat) (ht : 0 < t) :
    (lastWriter t N k).isSome ↔ k < N ∧ k < t := by
  constructor
  · intro h
    obtain ⟨i, hi⟩ := Option.isSome_iff_exists.mp h
    obtain ⟨h1, h2⟩ := lastWriter_mem t k N i hi
    have h3 : i % t < t := Nat.mod_lt i ht
    have h4 : i % t ≤ i := Nat.mod_le i t
    omega
  · rintro ⟨h1, h2⟩
    have hmem : k ∈ (List.range N).filter (fun i => i % t == k) := by
      rw [List.mem_filter]
      exact ⟨List.mem_range.mpr h1, by simp [Nat.mod_eq_of_lt h2]⟩
    unfold lastWriter
    rw [List.getLast?_isSome]
    intro hnil
    rw [hnil] at hmem
    exact absurd hmem (by simp)

theorem lastWriter_eq_none (t N k : Nat) (ht : 0 < t) (h : ¬(k < N ∧ k < t)) :
    lastWriter t N k = none := by
  have := (lastWriter_isSome_iff t N k ht).not.mpr h
  exact Option.not_isSome_iff_eq_none.mp this

theorem mod_succ_eq (t M : Nat) (ht : 0 < t) :
    (M + 1) % t = if M % t + 1 = t then 0 else M % t + 1 := by
  have h1 : t * (M / t) + M % t = M := Nat.div_add_mod M t
  have h2 : M % t < t := Nat.mod_lt M ht
  by_cases h : M % t + 1 = t
  · have hM : M + 1 = t * (M / t) + t := by omega
    rw [hM, Nat.mul_add_mod, Nat.mod_self, if_pos h]
  · have hM : M + 1 = t * (M / t) + (M % t + 1) := by omega
    rw [hM, Nat.mul_add_mod, if_neg h, Nat.mod_eq_of_lt (by omega)]

theorem cursorOf_succ (t N : Nat) : cursorOf t (N + 1) = 3 * (N % t) + 3 := by
  simp [cursorOf]

theorem effIndex_eq (t N : Nat) (ht : 0 < t) :
    (if cursorOf t N ≥ CAPACITY t then 0 else cursorOf t N) = 3 * (N % t) := by
  rcases N with _ | M
  · simp [cursorOf]
  · have h2 : M % t < t := Nat.mod_lt M ht
    have hc : cursorOf t (M + 1) = 3 * (M % t) + 3 := by simp [cursorOf]
    rw [hc, mod_succ_eq t M ht]
    unfold CAPACITY
    by_cases h : M % t + 1 = t
    · rw [if_pos (by omega : 3 * (M % t) + 3 ≥ t * 3), if_pos h]
    · rw [if_neg (by omega : ¬(3 * (M % t) + 3 ≥ t * 3)), if_neg h]
      omega

theorem wordOf_nil (t m : Nat) : wordOf t [] m = 0 := rfl

theorem bufferOf_nil (t : Nat) : bufferOf t [] = List.replicate (CAPACITY t) 0 := by
  apply List.ext_getElem
  · simp [bufferOf_length]
  · intro n h1 h2
    rw [bufferOf_getElem, wordOf_nil, List.getElem_replicate]

theorem initArray_eq (t : Nat) : initArray t = ⟨bufferOf t [], cursorOf t 0⟩ := by
  simp [initArray, bufferOf_nil, cursorOf]

theorem wordOf_snoc (t : Nat) (cs : List Triple) (c : Triple) (m : Nat) :
    wordOf t (cs ++ [c]) m =
      if m / 3 = cs.length % t then tripleWord c (m % 3) else wordOf t cs m := by
  unfold wordOf
  simp only [List.length_append, List.length_singleton]
  rw [lastWriter_succ]
  by_cases h : cs.length % t = m / 3
  · rw [if_pos h, if_pos h.symm]
    have hgd : (cs ++ [c]).getD cs.length ⟨0, 0, 0⟩ = c := by
      rw [List.getD_eq_getElem _ _ (by simp)]
      rw [List.getElem_append_right (le_refl _)]
      simp
    show tripleWord ((cs ++ [c]).getD cs.length ⟨0, 0, 0⟩) (m % 3) = tripleWord c (m % 3)
    rw [hgd]
  · rw [if_neg h, if_neg (fun hh => h hh.symm)]
    rcases hlw : lastWriter t cs.length (m / 3) with _ | i
    · rfl
    · have hi := (lastWriter_mem t (m / 3) cs.length i hlw).1
      have hgd : (cs ++ [c]).getD i ⟨0, 0, 0⟩ = cs.getD i ⟨0, 0, 0⟩ := by
        rw [List.getD_eq_getElem _ _ (by simp; omega), List.getD_eq_getElem _ _ hi]
        exact List.getElem_append_left hi
      show tripleWord ((cs ++ [c]).getD i ⟨0, 0, 0⟩) (m % 3)
          = tripleWord (cs.getD i ⟨0, 0, 0⟩) (m % 3)
      rw [hgd]

theorem bufferOf_snoc (t : Nat) (ht : 0 < t) (cs : List Triple) (c : Triple) :
    bufferOf t (cs ++ [c]) =
      (((bufferOf t cs).set (3 * (cs.length % t)) c.tag).set
          (3 * (cs.length % t) + 1) c.start).set (3 * (cs.length % t) + 2) c.stop := by
  have hk : cs.length % t < t := Nat.mod_lt _ ht
  apply List.ext_getElem
  · simp [bufferOf_length, List.length_set]
  · intro m h1 h2
    have hm : m < t * 3 := by
      rw [bufferOf_length] at h1; unfold CAPACITY at h1; exact h1
    rw [bufferOf_getElem]
    rw [List.getElem_set, List.getElem_set, List.getElem_set]
    rw [wordOf_snoc]
    by_cases hq : m / 3 = cs.length % t
    · rw [if_pos hq]
      have hcases : m = 3 * (cs.length % t) ∨ m = 3 * (cs.length % t) + 1 ∨
          m = 3 * (cs.length % t) + 2 := by omega
      rcases hcases with h | h | h <;> subst h <;>
        simp [tripleWord, Nat.mul_mod_right, Nat.mul_add_mod]
    · rw [if_neg hq]
      have hno : ¬(3 * (cs.length % t) = m) ∧ ¬(3 * (cs.length % t) + 1 = m) ∧
          ¬(3 * (cs.length % t) + 2 = m) := by omega
      rw [if_neg hno.2.2, if_neg hno.2.1, if_neg hno.1]
      rw [bufferOf_getElem]

theorem store3_eq (l : List Nat) (i a b d : Nat) (h : i + 2 < l.length) :
    store3 l i a b d = some (((l.set i a).set (i + 1) b).set (i + 2) d) := by
  have h0 : i < l.length := by omega
  have h1 : i + 1 < l.length := by omega
  simp [store3, setChecked, List.length_set, h0, h1, h]

theorem insert_step_array (t : Nat) (ht : 0 < t) (cs : List Triple) (c : Triple) :
    _insert_trace_const_array t c.tag c.start c.stop ⟨bufferOf t cs, cursorOf t cs.length⟩
      = some ⟨bufferOf t (cs ++ [c]), cursorOf t (cs.length + 1)⟩ := by
  have heff : (if cursorOf t cs.length ≥ CAPACITY t then 0 else cursorOf t cs.length)
      = 3 * (cs.length % t) := effIndex_eq t cs.length ht
  have hlen : 3 * (cs.length % t) + 2 < (bufferOf t cs).length := by
    rw [bufferOf_length]
    unfold CAPACITY
    have := Nat.mod_lt cs.length ht
    omega
  simp only [_insert_trace_const_array, heff]
  rw [store3_eq _ _ _ _ _ hlen]
  rw [← bufferOf_snoc t ht cs c, cursorOf_succ]
  rfl

theorem runArray_eq (t : Nat) (ht : 0 < t) (cs : List Triple) :
    runArray t cs = some ⟨bufferOf t cs, cursorOf t cs.length⟩ := by
  induction cs using List.reverseRecOn with
  | nil =>
    rw [runArray, List.foldl_nil, initArray_eq t]
    rfl
  | append_singleton cs c ih =>
    rw [runArray, List.foldl_append]
    rw [show List.foldl (fun acc c => acc.bind
        (_insert_trace_const_array t c.tag c.start c.stop)) (some (initArray t)) cs
      = runArray t cs from rfl]
    rw [ih, List.foldl_cons, List.foldl_nil]
    show (_insert_trace_const_array t c.tag c.start c.stop
        ⟨bufferOf t cs, cursorOf t cs.length⟩) = _
    rw [insert_step_array t ht cs c]
    simp [List.length_append]

theorem wordOf_zero_of_ge (t : Nat) (cs : List Triple) (m : Nat) (ht : 0 < t)
    (h : 3 * min cs.length t ≤ m) : wordOf t cs m = 0 := by
  unfold wordOf
  rw [lastWriter_eq_none t cs.length (m / 3) ht (by omega)]

theorem bufferOf_drop (t : Nat) (ht : 0 < t) (cs : List Triple) :
    (bufferOf t cs).drop (3 * min cs.length t)
      = List.replicate (CAPACITY t - 3 * min cs.length t) 0 := by
  apply List.ext_getElem
  · simp [List.length_drop, bufferOf_length]
  · intro n h1 h2
    rw [List.getElem_drop, List.getElem_replicate, bufferOf_getElem]
    exact wordOf_zero_of_ge t cs _ ht (by omega)

theorem bufferOf_split (t : Nat) (ht : 0 < t) (cs : List Triple) :
    bufferOf t cs = (bufferOf t cs).take (3 * min cs.length t)
      ++ List.replicate (CAPACITY t - 3 * min cs.length t) 0 := by
  conv_lhs => rw [← List.take_append_drop (3 * min cs.length t) (bufferOf t cs)]
  rw [bufferOf_drop t ht cs]

theorem take_bufferOf_snoc (t : Nat) (_ht : 0 < t) (cs : List Triple) (c : Triple)
    (hN : cs.length < t) :
    (bufferOf t (cs ++ [c])).take (3 * min (cs.length + 1) t)
      = (bufferOf t cs).take (3 * min cs.length t) ++ [c.tag, c.start, c.stop] := by
  have hmin : min cs.length t = cs.length := by omega
  have hmin2 : min (cs.length + 1) t = cs.length + 1 := by omega
  rw [hmin, hmin2]
  have hNt : cs.length % t = cs.length := Nat.mod_eq_of_lt hN
  have hlen_take : ((bufferOf t cs).take (3 * cs.length)).length = 3 * cs.length := by
    rw [List.length_take, bufferOf_length]
    unfold CAPACITY
    omega
  apply List.ext_getElem
  · simp only [List.length_take, List.length_append, bufferOf_length, List.length_cons,
      List.length_nil, CAPACITY]
    omega
  · intro m h1 h2
    have hm : m < 3 * (cs.length + 1) := by
      rw [List.length_take] at h1
      omega
    rw [List.getElem_take, bufferOf_getElem, wordOf_snoc, hNt]
    by_cases hlt : m < 3 * cs.length
    · rw [if_neg (by omega : ¬(m / 3 = cs.length))]
      rw [List.getElem_append_left (by omega : m < ((bufferOf t cs).take (3 * cs.length)).length)]
      rw [List.getElem_take, bufferOf_getElem]
    · rw [if_pos (by omega : m / 3 = cs.length)]
      rw [List.getElem_append_right (by omega : ((bufferOf t cs).take (3 * cs.length)).length ≤ m)]
      have hcases : m = 3 * cs.length ∨ m = 3 * cs.length + 1 ∨ m = 3 * cs.length + 2 := by
        omega
      rcases hcases with h | h | h <;> subst h <;>
        simp [tripleWord, hlen_take, Nat.mul_mod_right, Nat.mul_add_mod]

theorem insert_step_vec (t : Nat) (ht : 0 < t) (cs : List Triple) (c : Triple) :
    _insert_trace_vec t c.tag c.start c.stop
        ⟨(bufferOf t cs).take (3 * min cs.length t), cursorOf t cs.length⟩
      = some ⟨(bufferOf t (cs ++ [c])).take (3 * min (cs.length + 1) t),
          cursorOf t (cs.length + 1)⟩ := by
  have heff : (if cursorOf t cs.length ≥ CAPACITY t then 0 else cursorOf t cs.length)
      = 3 * (cs.length % t) := effIndex_eq t cs.length ht
  by_cases hfull : t ≤ cs.length
  · have htake : (bufferOf t cs).take (3 * min cs.length t) = bufferOf t cs := by
      rw [show min cs.length t = t by omega]
      rw [show (3 * t) = (bufferOf t cs).length by rw [bufferOf_length]; unfold CAPACITY; omega]
      exact List.take_length _
    have htake2 : (bufferOf t (cs ++ [c])).take (3 * min (cs.length + 1) t)
        = bufferOf t (cs ++ [c]) := by
      rw [show min (cs.length + 1) t = t by omega]
      rw [show (3 * t) = (bufferOf t (cs ++ [c])).length by
        rw [bufferOf_length]; unfold CAPACITY; omega]
      exact List.take_length _
    rw [htake, htake2]
    have hcond : (bufferOf t cs).length ≥ CAPACITY t := by
      rw [bufferOf_length]
    have hlen3 : 3 * (cs.length % t) + 2 < (bufferOf t cs).length := by
      rw [bufferOf_length]
      unfold CAPACITY
      have := Nat.mod_lt cs.length ht
      omega
    simp only [_insert_trace_vec, heff, if_pos hcond]
    rw [store3_eq _ _ _ _ _ hlen3]
    rw [← bufferOf_snoc t ht cs c, cursorOf_succ]
    rfl
  · have hN : cs.length < t := by omega
    have hlen : ((bufferOf t cs).take (3 * min cs.length t)).length = 3 * min cs.length t := by
      rw [List.length_take, bufferOf_length]
      unfold CAPACITY
      omega
    have hcond : ¬(((bufferOf t cs).take (3 * min cs.length t)).length ≥ CAPACITY t) := by
      rw [hlen]
      unfold CAPACITY
      omega
    simp only [_insert_trace_vec, heff, if_neg hcond]
    rw [take_bufferOf_snoc t ht cs c hN, cursorOf_succ]

theorem runVec_eq (t : Nat) (ht : 0 < t) (cs : List Triple) :
    runVec t cs = some ⟨(bufferOf t cs).take (3 * min cs.length t), cursorOf t cs.length⟩ := by
  induction cs using List.reverseRecOn with
  | nil =>
    rw [runVec, List.foldl_nil]
    simp [initVec, cursorOf]
  | append_singleton cs c ih =>
    rw [runVec, List.foldl_append]
    rw [show List.foldl (fun acc c => acc.bind
        (_insert_trace_vec t c.tag c.start c.stop)) (some initVec) cs
      = runVec t cs from rfl]
    rw [ih, List.foldl_cons, List.foldl_nil]
    show _insert_trace_vec t c.tag c.start c.stop
        ⟨(bufferOf t cs).take (3 * min cs.length t), cursorOf t cs.length⟩ = _
    rw [insert_step_vec t ht cs c]
    simp [List.length_append]

theorem bufferOf_getElem? (t : Nat) (cs : List Triple) (m : Nat) (h : m < CAPACITY t) :
    (bufferOf t cs)[m]? = some (wordOf t cs m) := by
  rw [List.getElem?_eq_getElem (by rw [bufferOf_length]; exact h)]
  rw [bufferOf_getElem]

theorem lastWriter_second_lap (t k : Nat) (hk : k < t) :
    lastWriter t (t + k + 1) k = some (t + k) := by
  rw [lastWriter_succ]
  rw [if_pos (by rw [Nat.add_mod_left]; exact Nat.mod_eq_of_lt hk)]

theorem csvRun_replicate_zero (sink : Nat → Bool) (z n : Nat) :
    csvRun sink (List.replicate z 0) n = ([], none) := by
  match z with
  | 0 => rfl
  | 1 => rfl
  | 2 => rfl
  | (k + 3) =>
    show csvRun sink (0 :: 0 :: 0 :: List.replicate k 0) n = ([], none)
    simp [csvRun]

theorem csvRun_ok : ∀ (l : List Nat) (n : Nat),
    csvRun (fun _ => true) l n = (linesOf l, none)
  | [], _ => rfl
  | [_], _ => rfl
  | [_, _], _ => rfl
  | tag :: start :: stp :: rest, n => by
    by_cases hp : stp = 0
    · simp [csvRun, linesOf, hp]
    · simp [csvRun, linesOf, hp, csvRun_ok rest (n + 1)]

theorem csvRun_fail (sink : Nat → Bool) : ∀ (l : List Nat) (n k : Nat),
    sink (n + k) = false → (∀ j, j < k → sink (n + j) = true) →
    k < (linesOf l).length →
    csvRun sink l n = ((linesOf l).take k, some (n + k))
  | [], _, k, _, _, hk => by simp [linesOf] at hk
  | [_], _, k, _, _, hk => by simp [linesOf] at hk
  | [_, _], _, k, _, _, hk => by simp [linesOf] at hk
  | tag :: start :: stp :: rest, n, k, hf, hp, hk => by
    have hstp : ¬(stp = 0) := by
      intro h
      simp [linesOf, h] at hk
    rcases k with _ | j
    · have hsn : sink n = false := by simpa using hf
      simp [csvRun, hstp, hsn, linesOf]
    · have hsn : sink n = true := by simpa using hp 0 (by omega)
      have ih := csvRun_fail sink rest (n + 1) j
        (by rw [show n + 1 + j = n + (j + 1) by omega]; exact hf)
        (fun j' hj' => by
          rw [show n + 1 + j' = n + (j' + 1) by omega]
          exact hp (j' + 1) (by omega))
        (by simp [linesOf, hstp] at hk; omega)
      rw [show csvRun sink (tag :: start :: stp :: rest) n
          = (⟨tag, start, stp, u64sub stp start⟩ :: (csvRun sink rest (n + 1)).1,
             (csvRun sink rest (n + 1)).2) by simp [csvRun, hstp, hsn]]
      rw [ih]
      simp only [linesOf, if_neg hstp, List.take_succ_cons]
      rw [show n + 1 + j = n + (j + 1) by omega]

theorem csvRun_zeros_tail (sink : Nat → Bool) (z : Nat) : ∀ (l : List Nat),
    l.length % 3 = 0 → ∀ n,
    csvRun sink (l ++ List.replicate z 0) n = csvRun sink l n
  | [], _, n => by simpa using csvRun_replicate_zero sink z n
  | [_], h, _ => by simp at h
  | [_, _], h, _ => by simp at h
  | a :: b :: c :: rest, h, n => by
    have ih := csvRun_zeros_tail sink z rest
      (by simp only [List.length_cons] at h; omega) (n + 1)
    by_cases hc : c = 0
    · simp [csvRun, hc]
    · by_cases hs : sink n
      · simp [csvRun, hc, hs, ih]
      · simp [csvRun, hc, hs]

theorem csvRun_flatten (z : Nat) : ∀ (ts : List Triple),
    (∀ tr ∈ ts, tr.stop ≠ 0) → ∀ n,
    csvRun (fun _ => true) (tripleFlatten ts ++ List.replicate z 0) n
      = (ts.map lineOf, none)
  | [], _, n => by simpa using csvRun_replicate_zero (fun _ => true) z n
  | tr :: rest, hstop, n => by
    have hs : tr.stop ≠ 0 := hstop tr (by simp)
    have ih := csvRun_flatten z rest (fun x hx => hstop x (by simp [hx])) (n + 1)
    simp [tripleFlatten, csvRun, hs, ih, lineOf]

theorem toBytes_length : ∀ (l : List Nat), (toBytes l).length = 8 * l.length
  | [] => rfl
  | x :: rest => by
    simp only [toBytes, List.length_append, List.length_cons,
      toBytes_length rest]
    simp [u64le]
    omega

theorem u64leByte_zero (j : Nat) : u64leByte 0 j = 0 := by
  simp [u64leByte]

theorem toBytes_getElem? : ∀ (l : List Nat) (m : Nat),
    (toBytes l)[m]? = (l[m / 8]?).map (fun x => u64leByte x (m % 8))
  | [], m => by simp [toBytes]
  | x :: rest, m => by
    by_cases hm : m < 8
    · rw [toBytes, List.getElem?_append_left (by simp [u64le]; omega)]
      rw [show m / 8 = 0 by omega]
      simp [u64le, List.getElem?_map, List.getElem?_range hm,
        show m % 8 = m by omega]
    · obtain ⟨q, hq⟩ : ∃ q, m / 8 = q + 1 := ⟨m / 8 - 1, by omega⟩
      rw [toBytes, List.getElem?_append_right (by simp [u64le]; omega)]
      rw [show (u64le x).length = 8 by simp [u64le]]
      rw [toBytes_getElem? rest (m - 8)]
      rw [show (m - 8) / 8 = q by omega, show (m - 8) % 8 = m % 8 by omega]
      rw [hq, List.getElem?_cons_succ]

theorem u64sub_int (a b : Nat) (ha : a < 2 ^ 64) (hb : b < 2 ^ 64) :
    (u64sub a b : Int) = ((a : Int) - (b : Int)) % 2 ^ 64 := by
  have h1 : (2 : Nat) ^ 64 = 18446744073709551616 := by norm_num
  have h2 : (2 : Int) ^ 64 = 18446744073709551616 := by norm_num
  unfold u64sub
  rw [h1, h2]
  omega

theorem wordOf_slot (t : Nat) (cs : List Triple) (k r : Nat) (hr : r < 3) :
    wordOf t cs (3 * k + r) =
      match lastWriter t cs.length k with
      | some i => tripleWord (cs.getD i ⟨0, 0, 0⟩) r
      | none => 0 := by
  unfold wordOf
  rw [show (3 * k + r) / 3 = k by omega, show (3 * k + r) % 3 = r by omega]

theorem lastWriter_first_lap (t k : Nat) : ∀ (N : Nat), k < N → N ≤ t →
    lastWriter t N k = some k := by
  intro N
  induction N with
  | zero => omega
  | succ M ih =>
    intro hk hN
    rw [lastWriter_succ]
    by_cases hM : k = M
    · subst hM
      rw [if_pos (Nat.mod_eq_of_lt (by omega))]
    · have hMt : M % t = M := Nat.mod_eq_of_lt (by omega)
      rw [if_neg (by omega)]
      exact ih (by omega) (by omega)

theorem cursorOf_props (t N : Nat) (ht : 0 < t) :
    cursorOf t N % 3 = 0 ∧ cursorOf t N ≤ CAPACITY t
    ∧ (cursorOf t N ≥ CAPACITY t ↔ (N ≠ 0 ∧ N % t = 0)) := by
  rcases N with _ | M
  · rw [show cursorOf t 0 = 0 from rfl]
    unfold CAPACITY
    exact ⟨rfl, by omega, by omega⟩
  · have h2 : M % t < t := Nat.mod_lt M ht
    have h3 : cursorOf t (M + 1) = 3 * (M % t) + 3 := by simp [cursorOf]
    rw [h3]
    unfold CAPACITY
    refine ⟨by omega, by omega, ?_⟩
    rw [mod_succ_eq t M ht]
    by_cases hc : M % t + 1 = t
    · rw [if_pos hc]
      omega
    · rw [if_neg hc]
      omega

/-- Claim C7: committing through a Span Handle — constructed with tag `tag` at
a point where the counter reads `s`, dropped at a point where the counter
reads `e` — produces exactly the state of a Direct Insert
`_insert_trace(tag, s, e)`: the same single commit side effect and the same
cursor advance, under both storage strategies. -/
theorem c7_direct_insert_equiv (t tag s e : Nat) (st : TState) :
    traceSpanDropArray t (TraceSpan.new tag s) e st
        = _insert_trace_const_array t tag s e st
    ∧ traceSpanDropVec t (TraceSpan.new tag s) e st
        = _insert_trace_vec t tag s e st :=
  ⟨rfl, rfl⟩

/-- Claim C9: both exporters are read-only on the thread-local state: for
every sink (including failing ones) and every buffer/cursor state, the state
returned by the exporter equals the input state, so the caller may retry. -/
theorem c9_export_readonly (sink : Nat → Bool) (st : TState) :
    (write_traces_csv sink st).1 = st ∧ (write_traces_binary sink st).1 = st :=
  ⟨rfl, rfl⟩

/-- Claim C10 (amended): for every positive configured capacity, the commit
operation cannot fail: starting from the initial thread state, every storage
access of every commit in any sequence is in bounds and the whole run
completes, under both strategies.  The capacity-0 `off` tier is the exception
recorded by the counterexample: there a direct call to the commit operation
indexes an empty storage. -/
theorem c10_commit_total (t : Nat) (ht : 0 < t) (cs : List Triple) :
    (runArray t cs).isSome ∧ (runVec t cs).isSome := by
  rw [runArray_eq t ht cs, runVec_eq t ht cs]
  exact ⟨rfl, rfl⟩

/-- Claim C10 counterexample: under the capacity-0 (`off`) configuration, a
single direct call to the commit operation performs an out-of-bounds storage
access (modelled as `none`) under both storage strategies. -/
theorem c10_capacity_zero_cx :
    _insert_trace_const_array 0 1 2 3 (initArray 0) = none
    ∧ _insert_trace_vec 0 1 2 3 initVec = none := by
  exact ⟨rfl, rfl⟩

/-- Claim C10 witness: with capacity 2, a concrete three-commit run completes
under both strategies. -/
theorem c10_commit_total_witness :
    (runArray 2 [⟨1, 2, 3⟩, ⟨4, 5, 6⟩, ⟨7, 8, 9⟩]).isSome
    ∧ (runVec 2 [⟨1, 2, 3⟩, ⟨4, 5, 6⟩, ⟨7, 8, 9⟩]).isSome :=
  c10_commit_total 2 (by decide) [⟨1, 2, 3⟩, ⟨4, 5, 6⟩, ⟨7, 8, 9⟩]

/-- Claim C3 (amended): after any commit sequence the write cursor is a
multiple of 3 in the closed interval `[0, CAPACITY]`, and both strategies
agree on it; but it reaches `CAPACITY` itself exactly after a positive
multiple of `TSC_TRACE_CAPACITY` commits, and precisely then the defensive
reset branch (`i >= CAPACITY`) is taken at the start of the next commit — the
claim's half-open bound `[0, CAPACITY)` and the unreachability of the reset
branch fail there. -/
theorem c3_cursor_invariant (t : Nat) (ht : 0 < t) (cs : List Triple)
    (sa sv : TState) (ha : runArray t cs = some sa) (hv : runVec t cs = some sv) :
    sa.index % 3 = 0 ∧ sa.index ≤ CAPACITY t ∧ sv.index = sa.index
    ∧ (sa.index ≥ CAPACITY t ↔ (cs ≠ [] ∧ cs.length % t = 0)) := by
  rw [runArray_eq t ht cs] at ha
  rw [runVec_eq t ht cs] at hv
  injection ha with ha
  subst ha
  injection hv with hv
  subst hv
  have hp := cursorOf_props t cs.length ht
  refine ⟨hp.1, hp.2.1, rfl, ?_⟩
  rw [hp.2.2]
  constructor
  · rintro ⟨h1, h2⟩
    exact ⟨fun h => h1 (by simp [h]), h2⟩
  · rintro ⟨h1, h2⟩
    exact ⟨fun h => h1 (List.length_eq_zero.mp h), h2⟩

/-- Claim C3 counterexample: at the default capacity tier, after exactly
`TSC_TRACE_CAPACITY` commits the write cursor equals `CAPACITY` — it is not in
the half-open interval `[0, CAPACITY)` the claim states. -/
theorem c3_cursor_cx :
    (runArray TSC_TRACE_CAPACITY
        (List.replicate TSC_TRACE_CAPACITY ⟨1, 1, 1⟩)).map TState.index
      = some (CAPACITY TSC_TRACE_CAPACITY)
    ∧ ¬(CAPACITY TSC_TRACE_CAPACITY < CAPACITY TSC_TRACE_CAPACITY) := by
  constructor
  · rw [runArray_eq TSC_TRACE_CAPACITY (by norm_num [TSC_TRACE_CAPACITY]) _,
      Option.map_some']
    rw [List.length_replicate]
    norm_num [cursorOf, CAPACITY, TSC_TRACE_CAPACITY]
  · omega

/-- Claim C3 witness: concrete instance of the amended cursor invariant with
capacity 2 after two commits (the cursor is 6 = CAPACITY, a multiple of 3). -/
theorem c3_cursor_invariant_witness :
    (6 : Nat) % 3 = 0 ∧ (6 : Nat) ≤ CAPACITY 2 ∧ (6 : Nat) = 6
    ∧ ((6 : Nat) ≥ CAPACITY 2 ↔
        (([⟨1, 1, 1⟩, ⟨2, 2, 2⟩] : List Triple) ≠ []
          ∧ ([⟨1, 1, 1⟩, ⟨2, 2, 2⟩] : List Triple).length % 2 = 0)) :=
  c3_cursor_invariant 2 (by decide) [⟨1, 1, 1⟩, ⟨2, 2, 2⟩]
    ⟨[1, 1, 1, 2, 2, 2], 6⟩ ⟨[1, 1, 1, 2, 2, 2], 6⟩ (by decide) (by decide)


theorem bufferOf_slot_some (t : Nat) (cs : List Triple) (k i : Nat)
    (hk : k < t) (hi : lastWriter t cs.length k = some i) (hi1 : i < cs.length) :
    (bufferOf t cs)[3 * k]? = (cs[i]?).map Triple.tag
    ∧ (bufferOf t cs)[3 * k + 1]? = (cs[i]?).map Triple.start
    ∧ (bufferOf t cs)[3 * k + 2]? = (cs[i]?).map Triple.stop := by
  refine ⟨?_, ?_, ?_⟩
  · rw [bufferOf_getElem? t cs (3 * k) (by unfold CAPACITY; omega)]
    unfold wordOf
    rw [show 3 * k / 3 = k by omega, show 3 * k % 3 = 0 by omega, hi,
      List.getElem?_eq_getElem hi1]
    show some ((cs.getD i ⟨0, 0, 0⟩).tag) = some (cs[i].tag)
    rw [List.getD_eq_getElem _ _ hi1]
  · rw [bufferOf_getElem? t cs (3 * k + 1) (by unfold CAPACITY; omega)]
    unfold wordOf
    rw [show (3 * k + 1) / 3 = k by omega, show (3 * k + 1) % 3 = 1 by omega, hi,
      List.getElem?_eq_getElem hi1]
    show some ((cs.getD i ⟨0, 0, 0⟩).start) = some (cs[i].start)
    rw [List.getD_eq_getElem _ _ hi1]
  · rw [bufferOf_getElem? t cs (3 * k + 2) (by unfold CAPACITY; omega)]
    unfold wordOf
    rw [show (3 * k + 2) / 3 = k by omega, show (3 * k + 2) % 3 = 2 by omega, hi,
      List.getElem?_eq_getElem hi1]
    show some ((cs.getD i ⟨0, 0, 0⟩).stop) = some (cs[i].stop)
    rw [List.getD_eq_getElem _ _ hi1]

theorem bufferOf_slot_none (t : Nat) (cs : List Triple) (k : Nat)
    (hk : k < t) (hnone : lastWriter t cs.length k = none) :
    (bufferOf t cs)[3 * k]? = some 0 ∧ (bufferOf t cs)[3 * k + 1]? = some 0
    ∧ (bufferOf t cs)[3 * k + 2]? = some 0 := by
  refine ⟨?_, ?_, ?_⟩
  · rw [bufferOf_getElem? t cs (3 * k) (by unfold CAPACITY; omega)]
    unfold wordOf
    rw [show 3 * k / 3 = k by omega, hnone]
  · rw [bufferOf_getElem? t cs (3 * k + 1) (by unfold CAPACITY; omega)]
    unfold wordOf
    rw [show (3 * k + 1) / 3 = k by omega, hnone]
  · rw [bufferOf_getElem? t cs (3 * k + 2) (by unfold CAPACITY; omega)]
    unfold wordOf
    rw [show (3 * k + 2) / 3 = k by omega, hnone]

/-- Claim C4: after any sequence of `N` commits, the buffer holds exactly
`min N TSC_TRACE_CAPACITY` live (non-overwritten) triples: the growing storage
has word length `3 * min N capacity`, and in the fixed array exactly the ring
slots `k < min N capacity` hold the triple of their last — hence
non-overwritten — writer, while every other slot is still untouched (zero). -/
theorem c4_capacity_bound (t : Nat) (ht : 0 < t) (cs : List Triple)
    (sa sv : TState) (ha : runArray t cs = some sa) (hv : runVec t cs = some sv) :
    sv.spans.length = 3 * min cs.length t
    ∧ (∀ k, k < min cs.length t →
        ∃ i, i < cs.length ∧ i % t = k
          ∧ (∀ j, i < j → j < cs.length → j % t ≠ k)
          ∧ sa.spans[3 * k]? = (cs[i]?).map Triple.tag
          ∧ sa.spans[3 * k + 1]? = (cs[i]?).map Triple.start
          ∧ sa.spans[3 * k + 2]? = (cs[i]?).map Triple.stop)
    ∧ (∀ k, min cs.length t ≤ k → k < t →
        sa.spans[3 * k]? = some 0 ∧ sa.spans[3 * k + 1]? = some 0
          ∧ sa.spans[3 * k + 2]? = some 0) := by
  rw [runArray_eq t ht cs] at ha
  rw [runVec_eq t ht cs] at hv
  injection ha with ha
  subst ha
  injection hv with hv
  subst hv
  refine ⟨?_, ?_, ?_⟩
  · show ((bufferOf t cs).take (3 * min cs.length t)).length = 3 * min cs.length t
    rw [List.length_take, bufferOf_length]
    unfold CAPACITY
    omega
  · intro k hk
    have hsome : (lastWriter t cs.length k).isSome :=
      (lastWriter_isSome_iff t cs.length k ht).mpr ⟨by omega, by omega⟩
    obtain ⟨i, hi⟩ := Option.isSome_iff_exists.mp hsome
    obtain ⟨hi1, hi2⟩ := lastWriter_mem t k cs.length i hi
    have hs := bufferOf_slot_some t cs k i (by omega) hi hi1
    exact ⟨i, hi1, hi2, lastWriter_max t k cs.length i hi, hs.1, hs.2.1, hs.2.2⟩
  · intro k hk1 hk2
    have hn := bufferOf_slot_none t cs k hk2
      (lastWriter_eq_none t cs.length k ht (by omega))
    exact ⟨hn.1, hn.2.1, hn.2.2⟩

/-- Claim C4 witness: capacity 2, three concrete commits — the growing buffer
holds `3 * min 3 2 = 6` words, both ring slots are live with their last
writers' triples, and there is no untouched slot. -/
theorem c4_capacity_bound_witness :
    ([3, 3, 3, 2, 2, 2] : List Nat).length = 3 * min 3 2
    ∧ (∀ k, k < min 3 2 →
        ∃ i, i < 3 ∧ i % 2 = k
          ∧ (∀ j, i < j → j < 3 → j % 2 ≠ k)
          ∧ ([3, 3, 3, 2, 2, 2] : List Nat)[3 * k]?
              = (([⟨1, 1, 1⟩, ⟨2, 2, 2⟩, ⟨3, 3, 3⟩] : List Triple)[i]?).map Triple.tag
          ∧ ([3, 3, 3, 2, 2, 2] : List Nat)[3 * k + 1]?
              = (([⟨1, 1, 1⟩, ⟨2, 2, 2⟩, ⟨3, 3, 3⟩] : List Triple)[i]?).map Triple.start
          ∧ ([3, 3, 3, 2, 2, 2] : List Nat)[3 * k + 2]?
              = (([⟨1, 1, 1⟩, ⟨2, 2, 2⟩, ⟨3, 3, 3⟩] : List Triple)[i]?).map Triple.stop)
    ∧ (∀ k, min 3 2 ≤ k → k < 2 →
        ([3, 3, 3, 2, 2, 2] : List Nat)[3 * k]? = some 0
          ∧ ([3, 3, 3, 2, 2, 2] : List Nat)[3 * k + 1]? = some 0
          ∧ ([3, 3, 3, 2, 2, 2] : List Nat)[3 * k + 2]? = some 0) :=
  c4_capacity_bound 2 (by decide) [⟨1, 1, 1⟩, ⟨2, 2, 2⟩, ⟨3, 3, 3⟩]
    ⟨[3, 3, 3, 2, 2, 2], 3⟩ ⟨[3, 3, 3, 2, 2, 2], 3⟩ (by decide) (by decide)

/-- Claim C5 (amended): wraparound overwrites whole slot groups in strict
insertion order: with 0-indexed commits, after exactly
`TSC_TRACE_CAPACITY + k + 1` commits (`0 ≤ k < capacity`) the triple at ring
position `k` is the one from commit number `TSC_TRACE_CAPACITY + k`.  As
frozen — after only `TSC_TRACE_CAPACITY + k` commits — the claim is off by
one; see the counterexample. -/
theorem c5_wraparound_order (t k : Nat) (ht : 0 < t) (hk : k < t)
    (cs : List Triple) (hN : cs.length = t + k + 1)
    (sa : TState) (ha : runArray t cs = some sa) :
    sa.spans[3 * k]? = (cs[t + k]?).map Triple.tag
    ∧ sa.spans[3 * k + 1]? = (cs[t + k]?).map Triple.start
    ∧ sa.spans[3 * k + 2]? = (cs[t + k]?).map Triple.stop := by
  rw [runArray_eq t ht cs] at ha
  injection ha with ha
  subst ha
  have hlw : lastWriter t cs.length k = some (t + k) := by
    rw [hN]
    exact lastWriter_second_lap t k hk
  have htk : t + k < cs.length := by omega
  have hs := bufferOf_slot_some t cs k (t + k) hk hlw htk
  exact ⟨hs.1, hs.2.1, hs.2.2⟩

/-- Claim C5 witness: capacity 2, `k = 0`, `2 + 0 + 1 = 3` commits — ring slot
0 holds the triple of 0-indexed commit number 2. -/
theorem c5_wraparound_order_witness :
    ([3, 3, 3, 2, 2, 2] : List Nat)[3 * 0]?
        = (([⟨1, 1, 1⟩, ⟨2, 2, 2⟩, ⟨3, 3, 3⟩] : List Triple)[2 + 0]?).map Triple.tag
    ∧ ([3, 3, 3, 2, 2, 2] : List Nat)[3 * 0 + 1]?
        = (([⟨1, 1, 1⟩, ⟨2, 2, 2⟩, ⟨3, 3, 3⟩] : List Triple)[2 + 0]?).map Triple.start
    ∧ ([3, 3, 3, 2, 2, 2] : List Nat)[3 * 0 + 2]?
        = (([⟨1, 1, 1⟩, ⟨2, 2, 2⟩, ⟨3, 3, 3⟩] : List Triple)[2 + 0]?).map Triple.stop :=
  c5_wraparound_order 2 0 (by decide) (by decide)
    [⟨1, 1, 1⟩, ⟨2, 2, 2⟩, ⟨3, 3, 3⟩] (by decide)
    ⟨[3, 3, 3, 2, 2, 2], 3⟩ (by decide)

theorem runArray_slot0_first (t : Nat) (ht : 0 < t) (cs : List Triple)
    (h0 : 0 < cs.length) (hle : cs.length ≤ t) :
    (runArray t cs).map (fun st => st.spans.getD 0 7)
      = some ((cs.getD 0 ⟨0, 0, 0⟩).tag) := by
  rw [runArray_eq t ht cs, Option.map_some']
  show some ((bufferOf t cs).getD 0 7) = some ((cs.getD 0 ⟨0, 0, 0⟩).tag)
  have hb : (0 : Nat) < (bufferOf t cs).length := by
    rw [bufferOf_length]
    unfold CAPACITY
    omega
  rw [List.getD_eq_getElem _ _ hb, bufferOf_getElem]
  unfold wordOf
  rw [Nat.zero_div, lastWriter_first_lap t 0 cs.length h0 hle]
  rfl

/-- Claim C5 counterexample: at the default capacity with `k = 0`, after
exactly `TSC_TRACE_CAPACITY + 0` commits of pairwise distinct triples, ring
slot 0 still holds the first commit\'s triple (tag 0) — not the triple of
commit number `TSC_TRACE_CAPACITY` in 1-indexed counting (the last commit,
tag `TSC_TRACE_CAPACITY - 1`); in 0-indexed counting a commit number
`TSC_TRACE_CAPACITY + 0` does not even exist among the first
`TSC_TRACE_CAPACITY` commits. -/
theorem c5_wraparound_cx :
    (runArray TSC_TRACE_CAPACITY
        ((List.range TSC_TRACE_CAPACITY).map (fun i => (⟨i, i, i + 1⟩ : Triple)))).map
        (fun st => st.spans.getD 0 7)
      = some 0
    ∧ (((List.range TSC_TRACE_CAPACITY).map (fun i => (⟨i, i, i + 1⟩ : Triple))).getD
        (TSC_TRACE_CAPACITY - 1) ⟨7, 7, 7⟩).tag = TSC_TRACE_CAPACITY - 1
    ∧ (0 : Nat) ≠ TSC_TRACE_CAPACITY - 1 := by
  have hlen : ((List.range TSC_TRACE_CAPACITY).map
      (fun i => (⟨i, i, i + 1⟩ : Triple))).length = TSC_TRACE_CAPACITY := by
    rw [List.length_map, List.length_range]
  refine ⟨?_, ?_, by norm_num [TSC_TRACE_CAPACITY]⟩
  · rw [runArray_slot0_first TSC_TRACE_CAPACITY (by norm_num [TSC_TRACE_CAPACITY]) _
      (by rw [hlen]; norm_num [TSC_TRACE_CAPACITY]) hlen.le]
    rw [List.getD_eq_getElem _ _ (by rw [hlen]; norm_num [TSC_TRACE_CAPACITY])]
    rw [List.getElem_map, List.getElem_range]
  · rw [List.getD_eq_getElem _ _ (by rw [hlen]; norm_num [TSC_TRACE_CAPACITY])]
    rw [List.getElem_map, List.getElem_range]

/-- Claim C6: a buffer holding exactly `M` committed triples (`M < capacity`,
each with a nonzero stop word per the sentinel convention) followed by the
untouched zero region makes the text exporter, with a never-failing sink, emit
exactly the `M` lines `tag, start, stop, stop - start` in buffer order and
report success — scanning stops at the first zero stop word, and the delta is
the u64 wrapping subtraction `(stop - start) mod 2 ^ 64`, with no error when
`stop < start`. -/
theorem c6_text_export (t M : Nat) (ts : List Triple)
    (hM : ts.length = M) (_hMt : M < t)
    (hstop : ∀ tr ∈ ts, tr.stop ≠ 0) (st : TState)
    (hspans : st.spans = tripleFlatten ts ++ List.replicate (CAPACITY t - 3 * M) 0) :
    (write_traces_csv (fun _ => true) st).2 = (ts.map lineOf, none)
    ∧ (ts.map lineOf).length = M
    ∧ (∀ a b : Nat, a < 2 ^ 64 → b < 2 ^ 64 →
        (u64sub a b : Int) = ((a : Int) - (b : Int)) % 2 ^ 64) := by
  refine ⟨?_, by simp [hM], fun a b ha hb => u64sub_int a b ha hb⟩
  show csvRun (fun _ => true) st.spans 0 = (ts.map lineOf, none)
  rw [hspans]
  exact csvRun_flatten _ ts hstop 0

/-- Claim C6 witness: the spec's own example — commits `(1,100,150)` and
`(2,200,260)` at capacity 3 — exports exactly the two lines with deltas 50
and 60. -/
theorem c6_text_export_witness :
    (write_traces_csv (fun _ => true) ⟨[1, 100, 150, 2, 200, 260, 0, 0, 0], 6⟩).2
        = (([⟨1, 100, 150⟩, ⟨2, 200, 260⟩] : List Triple).map lineOf, none)
    ∧ (([⟨1, 100, 150⟩, ⟨2, 200, 260⟩] : List Triple).map lineOf).length = 2
    ∧ (∀ a b : Nat, a < 2 ^ 64 → b < 2 ^ 64 →
        (u64sub a b : Int) = ((a : Int) - (b : Int)) % 2 ^ 64) :=
  c6_text_export 3 2 [⟨1, 100, 150⟩, ⟨2, 200, 260⟩] rfl (by decide)
    (by decide) ⟨[1, 100, 150, 2, 200, 260, 0, 0, 0], 6⟩ rfl

/-- Claim C8: export halts at the first failing sink write and returns that
failure: if csv writes `0, …, k - 1` succeed and write `k` is the first to
fail while a `k`-th line exists, the result is exactly the `k` successfully
written lines plus the error identifying write `k` — no further writes and no
retry; with a never-failing sink the csv export writes every line and returns
success; the binary export's single write likewise either fails immediately
with the error and no output, or succeeds with the full byte image. -/
theorem c8_first_failure (sink : Nat → Bool) (st : TState) (k : Nat)
    (hf : sink k = false) (hp : ∀ j, j < k → sink j = true)
    (hk : k < (linesOf st.spans).length) :
    (write_traces_csv sink st).2 = ((linesOf st.spans).take k, some k)
    ∧ (∀ st2 : TState,
        (write_traces_csv (fun _ => true) st2).2 = (linesOf st2.spans, none))
    ∧ (∀ (sink2 : Nat → Bool) (st2 : TState), sink2 0 = false →
        (write_traces_binary sink2 st2).2 = ([], some 0))
    ∧ (∀ (sink2 : Nat → Bool) (st2 : TState), sink2 0 = true →
        (write_traces_binary sink2 st2).2 = (toBytes st2.spans, none)) := by
  refine ⟨?_, fun st2 => csvRun_ok st2.spans 0,
    fun sink2 st2 h2 => ?_, fun sink2 st2 h2 => ?_⟩
  · show csvRun sink st.spans 0 = ((linesOf st.spans).take k, some k)
    have h := csvRun_fail sink st.spans 0 k (by simpa using hf)
      (fun j hj => by simpa using hp j hj) hk
    simpa using h
  · simp [write_traces_binary, h2]
  · simp [write_traces_binary, h2]

/-- Claim C8 witness: a sink whose second write fails — the csv export over a
three-line buffer emits exactly the first line and reports the failure of
write 1. -/
theorem c8_first_failure_witness :
    (write_traces_csv (fun n => n == 0) ⟨[1, 1, 1, 2, 2, 2, 3, 3, 3], 9⟩).2
        = ((linesOf [1, 1, 1, 2, 2, 2, 3, 3, 3]).take 1, some 1)
    ∧ (∀ st2 : TState,
        (write_traces_csv (fun _ => true) st2).2 = (linesOf st2.spans, none))
    ∧ (∀ (sink2 : Nat → Bool) (st2 : TState), sink2 0 = false →
        (write_traces_binary sink2 st2).2 = ([], some 0))
    ∧ (∀ (sink2 : Nat → Bool) (st2 : TState), sink2 0 = true →
        (write_traces_binary sink2 st2).2 = (toBytes st2.spans, none)) :=
  c8_first_failure (fun n => n == 0) ⟨[1, 1, 1, 2, 2, 2, 3, 3, 3], 9⟩ 1
    (by decide) (by decide) (by decide)

/-- Claim C1 (amended): with a succeeding sink, the binary exporter under the
`const_array` strategy always emits exactly `24 * TSC_TRACE_CAPACITY` bytes,
every byte of an uncommitted slot being 0; but under the default growing `Vec`
strategy it emits `24 * min N capacity` bytes — the output length does depend
on the number of commits until the buffer is full, refuting the claim's
"under both storage strategies". -/
theorem c1_binary_export_length (t : Nat) (ht : 0 < t) (cs : List Triple)
    (sink : Nat → Bool) (hs : sink 0 = true)
    (sa sv : TState) (ha : runArray t cs = some sa) (hv : runVec t cs = some sv) :
    (write_traces_binary sink sa).2.1.length = 24 * t
    ∧ (∀ m, 24 * min cs.length t ≤ m → m < 24 * t →
        (write_traces_binary sink sa).2.1[m]? = some 0)
    ∧ (write_traces_binary sink sv).2.1.length = 24 * min cs.length t := by
  rw [runArray_eq t ht cs] at ha
  rw [runVec_eq t ht cs] at hv
  injection ha with ha
  subst ha
  injection hv with hv
  subst hv
  have hb : ∀ (l : List Nat) (idx : Nat),
      (write_traces_binary sink ⟨l, idx⟩).2.1 = toBytes l := by
    intro l idx
    simp [write_traces_binary, hs]
  refine ⟨?_, ?_, ?_⟩
  · rw [hb, toBytes_length, bufferOf_length]
    unfold CAPACITY
    omega
  · intro m h1 h2
    rw [hb, toBytes_getElem?]
    rw [bufferOf_getElem? t cs (m / 8) (by unfold CAPACITY; omega)]
    rw [wordOf_zero_of_ge t cs (m / 8) ht (by omega)]
    simp [u64leByte_zero]
  · rw [hb, toBytes_length, List.length_take, bufferOf_length]
    unfold CAPACITY
    omega

/-- Claim C1 witness: capacity 2, one commit — the fixed array's binary export
is 48 bytes with the uncommitted slot's 24 bytes all zero, while the growing
strategy's export is 24 bytes. -/
theorem c1_binary_export_length_witness :
    (write_traces_binary (fun _ => true) ⟨[1, 2, 3, 0, 0, 0], 3⟩).2.1.length = 24 * 2
    ∧ (∀ m, 24 * min 1 2 ≤ m → m < 24 * 2 →
        (write_traces_binary (fun _ => true) ⟨[1, 2, 3, 0, 0, 0], 3⟩).2.1[m]? = some 0)
    ∧ (write_traces_binary (fun _ => true) ⟨[1, 2, 3], 3⟩).2.1.length = 24 * min 1 2 :=
  c1_binary_export_length 2 (by decide) [⟨1, 2, 3⟩] (fun _ => true) rfl
    ⟨[1, 2, 3, 0, 0, 0], 3⟩ ⟨[1, 2, 3], 3⟩ (by decide) (by decide)

/-- Claim C1 counterexample: under the default growing strategy, with zero
commits the binary exporter emits 0 bytes, not `24 * TSC_TRACE_CAPACITY`. -/
theorem c1_binary_vec_cx :
    runVec TSC_TRACE_CAPACITY [] = some initVec
    ∧ (write_traces_binary (fun _ => true) initVec).2.1.length = 0
    ∧ (0 : Nat) ≠ 24 * TSC_TRACE_CAPACITY := by
  exact ⟨rfl, rfl, by norm_num [TSC_TRACE_CAPACITY]⟩

/-- Claim C2 (amended): the two storage strategies always agree on the write
cursor and on the text export (for every sink, even a failing one); once at
least `TSC_TRACE_CAPACITY` commits have occurred they also agree on the stored
words and on the binary export, overwriting the same ring slots in the same
order.  Below capacity the binary exports differ (see the counterexample), so
the claimed full observable equivalence fails. -/
theorem c2_strategy_equivalence (t : Nat) (ht : 0 < t) (cs : List Triple)
    (sink : Nat → Bool) (sa sv : TState)
    (ha : runArray t cs = some sa) (hv : runVec t cs = some sv) :
    sv.index = sa.index
    ∧ (write_traces_csv sink sv).2 = (write_traces_csv sink sa).2
    ∧ (t ≤ cs.length →
        sv.spans = sa.spans
        ∧ (write_traces_binary sink sv).2 = (write_traces_binary sink sa).2) := by
  rw [runArray_eq t ht cs] at ha
  rw [runVec_eq t ht cs] at hv
  injection ha with ha
  subst ha
  injection hv with hv
  subst hv
  have hlen3 : ((bufferOf t cs).take (3 * min cs.length t)).length % 3 = 0 := by
    rw [List.length_take, bufferOf_length]
    unfold CAPACITY
    omega
  refine ⟨rfl, ?_, ?_⟩
  · show csvRun sink ((bufferOf t cs).take (3 * min cs.length t)) 0
        = csvRun sink (bufferOf t cs) 0
    conv_rhs => rw [bufferOf_split t ht cs]
    exact (csvRun_zeros_tail sink _ _ hlen3 0).symm
  · intro hfull
    have htake : (bufferOf t cs).take (3 * min cs.length t) = bufferOf t cs := by
      rw [show min cs.length t = t by omega]
      rw [show (3 * t) = (bufferOf t cs).length by
        rw [bufferOf_length]; unfold CAPACITY; omega]
      exact List.take_length _
    exact ⟨htake, by rw [htake]⟩

/-- Claim C2 witness: capacity 2 with three commits (buffer full) — the two
strategies yield the same concrete state, text export, and binary export. -/
theorem c2_strategy_equivalence_witness :
    (3 : Nat) = 3
    ∧ (write_traces_csv (fun _ => true) ⟨[3, 3, 3, 2, 2, 2], 3⟩).2
        = (write_traces_csv (fun _ => true) ⟨[3, 3, 3, 2, 2, 2], 3⟩).2
    ∧ (2 ≤ 3 →
        ([3, 3, 3, 2, 2, 2] : List Nat) = [3, 3, 3, 2, 2, 2]
        ∧ (write_traces_binary (fun _ => true) ⟨[3, 3, 3, 2, 2, 2], 3⟩).2
            = (write_traces_binary (fun _ => true) ⟨[3, 3, 3, 2, 2, 2], 3⟩).2) :=
  c2_strategy_equivalence 2 (by decide) [⟨1, 1, 1⟩, ⟨2, 2, 2⟩, ⟨3, 3, 3⟩]
    (fun _ => true) ⟨[3, 3, 3, 2, 2, 2], 3⟩ ⟨[3, 3, 3, 2, 2, 2], 3⟩
    (by decide) (by decide)

/-- Claim C2 counterexample: with zero commits (buffer below capacity) the two
strategies' binary exports differ — `24 * TSC_TRACE_CAPACITY` zero bytes from
the fixed array versus no bytes at all from the growing storage. -/
theorem c2_binary_divergence_cx :
    runArray TSC_TRACE_CAPACITY [] = some (initArray TSC_TRACE_CAPACITY)
    ∧ runVec TSC_TRACE_CAPACITY [] = some initVec
    ∧ (write_traces_binary (fun _ => true) (initArray TSC_TRACE_CAPACITY)).2.1
        ≠ (write_traces_binary (fun _ => true) initVec).2.1 := by
  refine ⟨rfl, rfl, ?_⟩
  intro h
  have hlen := congrArg List.length h
  rw [show (write_traces_binary (fun _ => true) (initArray TSC_TRACE_CAPACITY)).2.1
      = toBytes (List.replicate (CAPACITY TSC_TRACE_CAPACITY) 0) from rfl,
    show (write_traces_binary (fun _ => true) initVec).2.1 = toBytes [] from rfl] at hlen
  rw [toBytes_length, toBytes_length, List.length_replicate] at hlen
  norm_num [CAPACITY, TSC_TRACE_CAPACITY] at hlen
